import Mathlib

/-!
# Verification of the external-code folder-names examples

Shallow embedding of the repository's components: the index partitioner used by
the distributed example, the external doubling executable
(`extcode_distrib_comp.py`), the squaring executable (`extcode_square.py`), the
local-sum/all-reduce component (`Summer`), the working-directory discipline of
the stage `compute` methods, the `mkdir` error handling, and the textual
input/output file formats (`"%.16f"` scalars, `np.savetxt` vectors).

Machine floats in the scripts are modelled by `ℚ`. Text is modelled at the
character level (a line is a `List Char`), covering the ASCII inputs the
scripts exchange; decimal renderings round ties to even as C's `printf`
conversions do, though no statement below depends on the tie-breaking rule.
-/

namespace ExtcodeFolderNames

/-! ## Definitions: partitioner

`evenly_distrib_idxs` is imported from `openmdao.utils.array_utils` and its
body is not part of this repository's sources, so it is modelled from the
spec's description of the partition plan. -/

/-- Modelled from the spec: the length of rank `r`'s slice under
`evenly_distrib_idxs(workerCount, globalLength)` (openmdao library code, not in
this repository): with `base = globalLength / workerCount` and
`remainder = globalLength % workerCount`, ranks `0..remainder-1` get `base+1`
elements and the rest get `base`. -/
def distribSize (workerCount globalLength r : ℕ) : ℕ :=
  if r < globalLength % workerCount then globalLength / workerCount + 1
  else globalLength / workerCount

/-- Modelled from the spec: the offset of rank `r`'s slice — the running sum of
the preceding slice lengths. -/
def distribOffset (workerCount globalLength : ℕ) : ℕ → ℕ
  | 0 => 0
  | r + 1 => distribOffset workerCount globalLength r + distribSize workerCount globalLength r

/-- The partition plan: one `(offset, length)` pair per rank `0..workerCount-1`. -/
def partition (workerCount globalLength : ℕ) : List (ℕ × ℕ) :=
  (List.range workerCount).map fun r =>
    (distribOffset workerCount globalLength r, distribSize workerCount globalLength r)

/-! ## Definitions: the distributed doubling scenario

`extcode_distrib_comp.py` computes `outvec = 2.0 * invec` elementwise; the
component feeds each rank the slice of the global vector selected by
`src_indices = arange(offset, offset + size)`; `Summer.compute` sums the local
slice and `Allreduce(SUM)` gives every rank the total of all local sums. -/

/-- The external executable `extcode_distrib_comp.py`: `outvec = 2.0 * invec`. -/
def extcodeDistribComp (invec : List ℚ) : List ℚ := invec.map fun v => 2 * v

/-- The local slice of the global vector assigned to rank `r` by
`src_indices = arange(offsets[rank], offsets[rank] + sizes[rank])`. -/
def localSlice (workerCount : ℕ) (v : List ℚ) (r : ℕ) : List ℚ :=
  (v.drop (distribOffset workerCount v.length r)).take (distribSize workerCount v.length r)

/-- The body of `Summer.compute` before the collective: `np.sum` of the local
input slice. -/
def summerLocalSum (invec : List ℚ) : ℚ := invec.sum

/-- `comm.Allreduce(data, total, op=MPI.SUM)`: every rank receives the sum of
all ranks' contributions. -/
def allreduceSum (workerCount : ℕ) (localVal : ℕ → ℚ) : ℚ :=
  ((List.range workerCount).map localVal).sum

/-- `Summer.compute` end to end: local sum, then the all-reduce total that
every rank stores in `out`. -/
def summerOut (workerCount : ℕ) (invecs : ℕ → List ℚ) : ℚ :=
  allreduceSum workerCount fun r => summerLocalSum (invecs r)

/-! ## Definitions: the working-directory discipline of the stage compute
methods

`ParaboloidExternalCodeComp.compute`, `SquareExternalCodeComp.compute` and
`DistribExtCodeComp.compute` all have the same shape: record `startdir`,
`os.chdir(run_directory)`, write the input file, call the parent
`ExternalCodeComp.compute` (which runs the external command), read and parse
the output file, store the output value, and only then `os.chdir(startdir)`.
There is no `try/finally`, so an exception on any step after the first
`chdir` propagates with the working directory still changed. -/

/-- The exceptions a stage invocation can raise. -/
inductive StageError
  /-- An OSError while writing the input file. -/
  | writeFailed
  /-- Raised by the parent compute when the external command exits non-zero.
  Modelled from the spec: `ExternalCodeComp.compute` (openmdao library code,
  not in this repository) raises an error carrying the exit code when the
  child process returns a non-zero status. -/
  | externalProcessError (exitCode : ℕ)
  /-- A missing or malformed output file. -/
  | outputParseFailed
deriving DecidableEq

/-- The outcomes of the effectful steps of one stage invocation: whether the
input-file write succeeds, the exit status of the external command, whether
the output file is present and parses, and the parsed value. -/
structure StageEnv (α : Type) where
  writeOk : Bool
  exitCode : ℕ
  parseOk : Bool
  outputVal : α

/-- What one stage invocation leaves behind: the returned value or the raised
error, the process working directory at exit, and whether the output file was
ever read and parsed. -/
structure StageResult (α : Type) where
  result : Except StageError α
  finalCwd : List Char
  parsedOutput : Bool

/-- The `compute` method shared by the example components: `startdir = getcwd()`,
`chdir(run_directory)`, write input, run the external command through the
parent class, parse output, `chdir(startdir)`. Each early exit models the
corresponding Python exception propagating out of `compute`. -/
def stageCompute (α : Type) (runDirectory startCwd : List Char) (env : StageEnv α) :
    StageResult α :=
  if env.writeOk = false then
    { result := .error .writeFailed, finalCwd := runDirectory, parsedOutput := false }
  else if env.exitCode ≠ 0 then
    { result := .error (.externalProcessError env.exitCode), finalCwd := runDirectory,
      parsedOutput := false }
  else if env.parseOk = false then
    { result := .error .outputParseFailed, finalCwd := runDirectory, parsedOutput := true }
  else
    { result := .ok env.outputVal, finalCwd := startCwd, parsedOutput := true }

/-! ## Definitions: run-directory creation

Every run directory in the sources is created with
`try: os.mkdir(path) except: pass` — a bare `except` that swallows every
exception, not only "directory already exists". The filesystem is modelled
with paths as component lists; `osMkdir` follows the `os.mkdir` error cases
the claim names. -/

/-- The `OSError` subclasses `os.mkdir` can raise. -/
inductive OSError
  /-- `FileExistsError`: the path already exists (directory or file). -/
  | fileExists
  /-- `PermissionError`: creation in the parent is not permitted. -/
  | permissionDenied
  /-- `FileNotFoundError`: the parent directory is missing. -/
  | fileNotFound
  /-- `NotADirectoryError`: a path component is a regular file. -/
  | notADirectory
deriving DecidableEq

/-- The spec's error type for directory-creation failures. -/
inductive DirectoryCreationError
  | directoryCreationError (cause : OSError)
deriving DecidableEq

/-- A filesystem: which paths (component lists) exist as directories, which as
regular files, and under which directories creation is permitted. -/
structure FileSystem where
  dirs : List (List (List Char))
  files : List (List (List Char))
  writable : List (List (List Char))
deriving DecidableEq

/-- `os.mkdir` on the model: fails with `FileExistsError` if the path exists,
`NotADirectoryError` if the parent is a regular file, `FileNotFoundError` if
the parent does not exist, `PermissionError` if the parent is not writable,
and otherwise creates the directory. -/
def osMkdir (fs : FileSystem) (path : List (List Char)) : Except OSError FileSystem :=
  if path ∈ fs.dirs ∨ path ∈ fs.files then .error .fileExists
  else if path.dropLast ∈ fs.files then .error .notADirectory
  else if path.dropLast ∉ fs.dirs then .error .fileNotFound
  else if path.dropLast ∉ fs.writable then .error .permissionDenied
  else .ok { fs with dirs := path :: fs.dirs }

/-- The repository's directory creation, `try: os.mkdir(path) except: pass`:
whatever `os.mkdir` does, the exception is swallowed and the caller sees
success. Returns the resulting filesystem and what the caller observes. -/
def ensureDirectory (fs : FileSystem) (path : List (List Char)) :
    FileSystem × Except DirectoryCreationError Unit :=
  match osMkdir fs path with
  | .ok fs2 => (fs2, .ok ())
  | .error _ => (fs, .ok ())

/-- Modelled from the spec: `ensure_directory` per §4.1 — silent success
exactly when the directory already exists, `DirectoryCreationError` for every
other `os.mkdir` failure. -/
def ensureDirectorySpec (fs : FileSystem) (path : List (List Char)) :
    FileSystem × Except DirectoryCreationError Unit :=
  match osMkdir fs path with
  | .ok fs2 => (fs2, .ok ())
  | .error .fileExists => (fs, .ok ())
  | .error e => (fs, .error (.directoryCreationError e))

/-- A concrete filesystem whose root exists but is not writable. -/
def roFs : FileSystem :=
  { dirs := [[]], files := [], writable := [] }

/-! ## Definitions: the MPI guard of the distributed example -/

/-- The observable effects of loading `extcode_folder_names_mpi_example.py`:
making a run directory or registering a subsystem during `setup`. -/
inductive SetupEffect
  | mkdirToplevel
  | mkdirDistribSubdir (rank : ℕ)
  | addSubsystem (name : List Char)
deriving DecidableEq

/-- The effects the module performs once `Problem.setup` runs on one rank:
the group registers its three subsystems and makes the top-level directory,
and the distributed component makes its rank-indexed subdirectory. -/
def mpiExampleSetupEffects (rank : ℕ) : List SetupEffect :=
  [.addSubsystem ['i', 'n', 'd', 'e', 'p'], .addSubsystem ['C', '2'],
    .addSubsystem ['C', '3'], .mkdirToplevel, .mkdirDistribSubdir rank]

/-- The top level of `extcode_folder_names_mpi_example.py` in statement order:
the guard `if not MPI: raise RuntimeError()` sits at lines 12-13, before the
`Problem` is built and set up at lines 131-132, so with no MPI the module
raises having performed no setup effect; with MPI it proceeds to the full
setup. The error value models the bare `RuntimeError()`. -/
def mpiExampleModuleLoad (mpiAvailable : Bool) (rank : ℕ) :
    List SetupEffect × Except Unit Unit :=
  if mpiAvailable = false then ([], .error ())
  else (mpiExampleSetupEffects rank, .ok ())

/-! ## Definitions: decimal text, `"%.16f"`, `"%.18e"`, and Python float()

The scalar stages write `'%.16f\n' % value`; the distributed stage writes its
vector with `np.savetxt`, whose default row format is `"%.18e"`, and reads the
result back with `np.loadtxt`, which converts each field with `float()`.
`extcode_square.py` reads its input with `float()` line by line. The renderers
and the parser below model those C/Python conversions on ASCII text. -/

/-- A line of a text file, as its characters. -/
abbrev Line := List Char

/-- The character of a decimal digit. -/
def digitChar (d : ℕ) : Char := Char.ofNat (48 + d)

/-- Decimal digits of a natural number, least significant first, by repeated
division; any `fuel ≥ n` yields all digits. -/
def natDigitsAux : ℕ → ℕ → List ℕ
  | 0, _ => []
  | _ + 1, 0 => []
  | fuel + 1, n => n % 10 :: natDigitsAux fuel (n / 10)

/-- The decimal digit values of a natural number, most significant first;
zero is the single digit `0`, as `"%d"` prints it. -/
def bigDigits (n : ℕ) : List ℕ :=
  if n = 0 then [0] else (natDigitsAux n n).reverse

/-- The decimal rendering of a natural number (the `"%d"` conversion). -/
def natChars (n : ℕ) : Line := (bigDigits n).map digitChar

/-- Left-pad with `'0'` to a minimum width, as the fixed-width fields of the
`printf` conversions require. -/
def leftPadZeros (w : ℕ) (cs : Line) : Line :=
  List.replicate (w - cs.length) '0' ++ cs

/-- Round to the nearest integer, ties to even — the rounding of C `printf`
conversions under the default rounding mode, hence of `"%.16f"` and
`np.savetxt`'s `"%.18e"`. No theorem below depends on the tie-breaking rule:
every rounding in the stated claims is exact. -/
def rnd (x : ℚ) : ℤ :=
  if x - ⌊x⌋ < 1 / 2 then ⌊x⌋
  else if 1 / 2 < x - ⌊x⌋ then ⌊x⌋ + 1
  else if 2 ∣ ⌊x⌋ then ⌊x⌋ else ⌊x⌋ + 1

/-- The `"%.16f"` conversion: optional sign, integer digits, `'.'`, exactly 16
fractional digits, the magnitude rounded at the 16th fractional digit. This is
the scalar input format of the paraboloid and square stages
(`'%.16f\n' % (x)`). -/
def fixed16 (q : ℚ) : Line :=
  (if q < 0 then ['-'] else []) ++
    natChars ((rnd (|q| * 10 ^ 16)).toNat / 10 ^ 16) ++
    '.' :: leftPadZeros 16 (natChars ((rnd (|q| * 10 ^ 16)).toNat % 10 ^ 16))

/-- The shape of a nonzero `"%.18e"` rendering: optional sign, the first of
the 19 mantissa digits, `'.'`, the other 18, `'e'`, and a signed
two-digit-minimum exponent. -/
def sciShape (neg : Bool) (m : ℕ) (e2 : ℤ) : Line :=
  (if neg then ['-'] else []) ++
    (((natChars m).take 1 ++ ('.' :: (natChars m).drop 1)) ++
      ('e' :: ((if e2 < 0 then '-' else '+') :: leftPadZeros 2 (natChars e2.natAbs))))

/-- The `"%.18e"` conversion — `np.savetxt`'s default row format. The 19-digit
mantissa is the magnitude rounded at its 19th significant digit, carrying into
the exponent when rounding reaches `10^19`. -/
def sci18 (q : ℚ) : Line :=
  if q = 0 then '0' :: '.' :: (List.replicate 18 '0' ++ ['e', '+', '0', '0'])
  else
    if (rnd (|q| * (10 : ℚ) ^ ((18 : ℤ) - Int.log 10 |q|))).toNat = 10 ^ 19 then
      sciShape (decide (q < 0)) (10 ^ 18) (Int.log 10 |q| + 1)
    else
      sciShape (decide (q < 0))
        (rnd (|q| * (10 : ℚ) ^ ((18 : ℤ) - Int.log 10 |q|))).toNat (Int.log 10 |q|)

/-- A Python float value: a finite value, modelled exactly in `ℚ`, or one of
the non-finite values `float()` also accepts. -/
inductive PyVal
  | num (q : ℚ)
  | inf
  | ninf
  | nan
deriving DecidableEq

/-- The whitespace `float()` strips from both ends of its ASCII argument. -/
def isPyWs (c : Char) : Bool :=
  c == ' ' || c == '\t' || c == '\n' || c == '\r' || c == '\x0b' || c == '\x0c'

/-- Strip leading and trailing whitespace. -/
def stripWs (cs : Line) : Line :=
  ((cs.dropWhile isPyWs).reverse.dropWhile isPyWs).reverse

/-- The numeric value of a decimal digit character; `none` for a non-digit. -/
def charDigitVal (c : Char) : Option ℕ :=
  if 48 ≤ c.toNat ∧ c.toNat ≤ 57 then some (c.toNat - 48) else none

/-- Read the rest of a Python `digitpart` — decimal digits with single
underscores allowed between digits — accumulating the value and the count of
digits consumed so far. -/
def digitRunAux : List Char → ℕ → ℕ → Option (ℕ × ℕ)
  | [], acc, cnt => some (acc, cnt)
  | c :: rest, acc, cnt =>
    if c = '_' then
      match rest with
      | [] => none
      | c2 :: rest2 =>
        match charDigitVal c2 with
        | some d => digitRunAux rest2 (10 * acc + d) (cnt + 1)
        | none => none
    else
      match charDigitVal c with
      | some d => digitRunAux rest (10 * acc + d) (cnt + 1)
      | none => none

/-- A whole Python `digitpart`: nonempty, starting with a digit, single
underscores only between digits. Returns its value and digit count. -/
def digitRunVal : List Char → Option (ℕ × ℕ)
  | [] => none
  | c :: rest =>
    match charDigitVal c with
    | some d => digitRunAux rest d 1
    | none => none

/-- Combine the two sides of the decimal point of a float mantissa (either
side may be absent, not both): the numerator and the count of fractional
digits. -/
def parseMantissaCore : List Char → List Char → Option (ℕ × ℕ)
  | ip, [] => (digitRunVal ip).map fun p => (p.1, 0)
  | ip, _ :: fp =>
    if fp.any fun c => c == '.' then none
    else
      match ip, fp with
      | [], [] => none
      | [], _ :: _ => (digitRunVal fp).map fun p => (p.1, p.2)
      | _ :: _, [] => (digitRunVal ip).map fun p => (p.1, 0)
      | _ :: _, _ :: _ =>
        match digitRunVal ip, digitRunVal fp with
        | some p, some q => some (p.1 * 10 ^ q.2 + q.1, q.2)
        | _, _ => none

/-- Parse a Python float mantissa (a `digitpart`, or a `pointfloat` with one
`'.'` and digits on at least one side). -/
def parseMantissa (cs : List Char) : Option (ℕ × ℕ) :=
  parseMantissaCore (cs.takeWhile fun c => !(c == '.')) (cs.dropWhile fun c => !(c == '.'))

/-- Parse the characters after the exponent marker: an optional sign and a
`digitpart`. -/
def parseExpPart : List Char → Option ℤ
  | [] => none
  | c :: rest =>
    if c = '-' then (digitRunVal rest).map fun p => -(p.1 : ℤ)
    else if c = '+' then (digitRunVal rest).map fun p => (p.1 : ℤ)
    else (digitRunVal (c :: rest)).map fun p => (p.1 : ℤ)

/-- Split an optional leading ASCII sign. -/
def splitSign : List Char → Bool × List Char
  | [] => (false, [])
  | c :: rest =>
    if c = '-' then (true, rest)
    else if c = '+' then (false, rest)
    else (false, c :: rest)

/-- Lower-case an ASCII letter. -/
def asciiLower (c : Char) : Char :=
  if 65 ≤ c.toNat ∧ c.toNat ≤ 90 then Char.ofNat (c.toNat + 32) else c

/-- The case-insensitive words `inf` and `infinity`. -/
def isInfWord (cs : List Char) : Bool :=
  cs.map asciiLower == ['i', 'n', 'f'] ||
    cs.map asciiLower == ['i', 'n', 'f', 'i', 'n', 'i', 't', 'y']

/-- The case-insensitive word `nan`. -/
def isNanWord (cs : List Char) : Bool :=
  cs.map asciiLower == ['n', 'a', 'n']

/-- A numeric float literal after the sign: a mantissa, optionally followed by
the `'e'`/`'E'` marker and an exponent. -/
def pyFloatNumber (neg : Bool) (mant rest : List Char) : Option PyVal :=
  match parseMantissa mant,
      (match rest with
        | [] => some (0 : ℤ)
        | _ :: ecs => parseExpPart ecs) with
  | some p, some e =>
    some (.num ((if neg then (-1 : ℚ) else 1) * (p.1 : ℚ) * (10 : ℚ) ^ (e - (p.2 : ℤ))))
  | _, _ => none

/-- After the sign: the special words, or a numeric literal split at its
exponent marker. -/
def pyFloatCore (neg : Bool) (body : List Char) : Option PyVal :=
  if isInfWord body then some (if neg then .ninf else .inf)
  else if isNanWord body then some .nan
  else pyFloatNumber neg (body.takeWhile fun c => !(c == 'e' || c == 'E'))
    (body.dropWhile fun c => !(c == 'e' || c == 'E'))

/-- Python's `float()` on an ASCII line: strip whitespace, an optional sign,
then `inf`/`infinity`/`nan` (case-insensitive) or a decimal/scientific literal
with single underscores permitted between digits. `none` models `ValueError`. -/
def pyFloat (line : Line) : Option PyVal :=
  pyFloatCore (splitSign (stripWs line)).1 (splitSign (stripWs line)).2

/-- All-or-nothing conversion of every line with `float()` — the behaviour of
`[float(f) for f in file_contents]` and of `np.loadtxt`'s field conversion. -/
def parseAll : List Line → Option (List PyVal)
  | [] => some []
  | l :: ls =>
    match pyFloat l, parseAll ls with
    | some v, some vs => some (v :: vs)
    | _, _ => none

/-- `np.savetxt(file, vec)` with the default `"%.18e"` format: one value per
line. -/
def savetxtLines (v : List ℚ) : List Line := v.map sci18

/-- `np.loadtxt`: skip blank lines, convert each remaining line with
`float()`; `none` models the parse error aborting the load. -/
def loadtxtLines (lines : List Line) : Option (List PyVal) :=
  parseAll (lines.filter fun l => !(stripWs l).isEmpty)

/-- Half of the spacing of the 19-significant-digit decimal grid around `q`:
the largest error `"%.18e"` rounding can introduce. -/
def halfUlp (q : ℚ) : ℚ :=
  if q = 0 then 0 else (10 : ℚ) ^ (Int.log 10 |q| - 18) / 2

/-! ## Definitions: the squaring executable and the scalar pipeline -/

/-- How `extcode_square.py` can fail. -/
inductive SquareErr
  /-- `ValueError`: some line of the input file is not a float literal. -/
  | valueError
  /-- `IndexError`: the input file has no lines, so `x[0]` is out of range. -/
  | indexError
deriving DecidableEq

/-- `x ** 2` on Python float values. -/
def pySquare : PyVal → PyVal
  | .num q => .num (q ^ 2)
  | .inf => .inf
  | .ninf => .inf
  | .nan => .nan

/-- `extcode_square.py`: read all lines, convert every line with `float()`
(`x = [float(f) for f in file_contents]`), square the first (`x[0]**2`). A
line `float()` rejects raises `ValueError`; an empty file raises `IndexError`
at `x[0]`. -/
def extcodeSquareMain (lines : List Line) : Except SquareErr PyVal :=
  match parseAll lines with
  | none => .error .valueError
  | some [] => .error .indexError
  | some (x0 :: _) => .ok (pySquare x0)

/-- Modelled from the spec: `extcode_paraboloid.py` (the executable the
paraboloid stage's command names, not present in src/) evaluates
`f(x, y) = (x-3)^2 + x*y + (y+4)^2 - 3`. -/
def paraboloid (x y : ℚ) : ℚ := (x - 3) ^ 2 + x * y + (y + 4) ^ 2 - 3

/-- The paraboloid stage's input file, `'%.16f\n%.16f\n' % (x, y)`: two lines,
each in the 16-fractional-digit fixed format. -/
def paraboloidInputLines (x y : ℚ) : List Line := [fixed16 x, fixed16 y]

/-- The square stage's input file, `'%.16f\n' % (x)`: one fixed-format line. -/
def squareInputLines (x : ℚ) : List Line := [fixed16 x]

/-- The distributed stage's input file, `np.savetxt(input_file, invec)`: one
`"%.18e"` line per element. -/
def distribInputLines (invec : List ℚ) : List Line := invec.map sci18

/-! ## Theorems: partitioner (claims C2 and C1) -/

lemma distribOffset_eq (wc gl r : ℕ) :
    distribOffset wc gl r = r * (gl / wc) + min (gl % wc) r := by
  induction r with
  | zero => simp [distribOffset]
  | succ r ih =>
      rw [distribOffset, ih, distribSize, Nat.succ_mul]
      simp only [Nat.min_def]
      split_ifs <;> omega

lemma distribOffset_workerCount (wc gl : ℕ) (hwc : 0 < wc) :
    distribOffset wc gl wc = gl := by
  rw [distribOffset_eq]
  have hmod : gl % wc < wc := Nat.mod_lt _ hwc
  have := Nat.div_add_mod gl wc
  omega

lemma distribOffset_mono (wc gl : ℕ) : Monotone (distribOffset wc gl) := by
  apply monotone_nat_of_le_succ
  intro r
  rw [distribOffset]
  exact Nat.le_add_right _ _

lemma partition_sizes_sum (wc gl n : ℕ) :
    (((List.range n).map fun r => distribSize wc gl r).sum) = distribOffset wc gl n := by
  induction n with
  | zero => simp [distribOffset]
  | succ n ih =>
      rw [List.range_succ, List.map_append, List.sum_append, ih]
      simp [distribOffset]

/-- For a monotone running-offset sequence, each covered index lies in some
slice. -/
lemma covering_index (f : ℕ → ℕ) :
    ∀ n j, f 0 ≤ j → j < f n → ∃ r, r < n ∧ f r ≤ j ∧ j < f (r + 1) := by
  intro n
  induction n with
  | zero => intro j h0 hn; omega
  | succ n ih =>
      intro j h0 hn
      rcases le_or_lt (f n) j with h | h
      · exact ⟨n, Nat.lt_succ_self n, h, hn⟩
      · obtain ⟨r, hr, hr1, hr2⟩ := ih j h0 h
        exact ⟨r, Nat.lt_succ_of_lt hr, hr1, hr2⟩

lemma partition_getD (wc gl r : ℕ) (hr : r < wc) :
    (partition wc gl).getD r (0, 0) = (distribOffset wc gl r, distribSize wc gl r) := by
  simp [partition, List.getD, List.getElem?_map, List.getElem?_range hr]

/-- C2: for every non-negative global length and positive worker count the
partition has one entry per rank; ranks below the remainder get `base+1`
elements and the rest get `base`; each offset is the running sum of preceding
lengths starting at 0; the lengths sum to the global length; and every global
index lies in exactly one slice. -/
theorem partition_correct (globalLength workerCount : ℕ) (hwc : 0 < workerCount) :
    (partition workerCount globalLength).length = workerCount ∧
    (∀ r, r < workerCount →
      (partition workerCount globalLength).getD r (0, 0) =
        (distribOffset workerCount globalLength r,
          if r < globalLength % workerCount then globalLength / workerCount + 1
          else globalLength / workerCount)) ∧
    distribOffset workerCount globalLength 0 = 0 ∧
    (∀ r, distribOffset workerCount globalLength (r + 1) =
      distribOffset workerCount globalLength r + distribSize workerCount globalLength r) ∧
    ((partition workerCount globalLength).map Prod.snd).sum = globalLength ∧
    (∀ j, j < globalLength → ∃! r, r < workerCount ∧
      distribOffset workerCount globalLength r ≤ j ∧
      j < distribOffset workerCount globalLength r + distribSize workerCount globalLength r) := by
  refine ⟨by simp [partition], ?_, rfl, fun r => rfl, ?_, ?_⟩
  · intro r hr
    rw [partition_getD _ _ _ hr, distribSize]
  · rw [partition, List.map_map]
    have : (Prod.snd ∘ fun r =>
        (distribOffset workerCount globalLength r, distribSize workerCount globalLength r)) =
        fun r => distribSize workerCount globalLength r := rfl
    rw [this, partition_sizes_sum, distribOffset_workerCount _ _ hwc]
  · intro j hj
    obtain ⟨r, hrwc, h1, h2⟩ := covering_index (distribOffset workerCount globalLength)
      workerCount j (by simp [distribOffset])
      (by rwa [distribOffset_workerCount _ _ hwc])
    rw [distribOffset] at h2
    refine ⟨r, ⟨hrwc, h1, h2⟩, ?_⟩
    rintro s ⟨hswc, hs1, hs2⟩
    by_contra hne
    rcases lt_or_gt_of_ne hne with h | h
    · have hm : distribOffset workerCount globalLength (s + 1) ≤
          distribOffset workerCount globalLength r := distribOffset_mono _ _ (by omega)
      rw [distribOffset] at hm
      omega
    · have hm : distribOffset workerCount globalLength (r + 1) ≤
          distribOffset workerCount globalLength s := distribOffset_mono _ _ (by omega)
      rw [distribOffset] at hm
      omega

/-- C2 witness at two workers and fifteen elements. -/
theorem partition_correct_witness :
    0 < 2 ∧ ((partition 2 15).map Prod.snd).sum = 15 :=
  ⟨by decide, (partition_correct 15 2 (by decide)).2.2.2.2.1⟩

/-- C1: with a global vector of 15 ones on 2 workers, the slices have lengths
8 and 7, each worker's external stage returns the elementwise doubling of its
slice (concretely eight 2s and seven 2s), the local sums are 16 and 14, and
after the all-reduce every worker's `out` equals 30. -/
theorem scenario_B :
    (partition 2 15).map Prod.snd = [8, 7] ∧
    extcodeDistribComp (localSlice 2 (List.replicate 15 (1 : ℚ)) 0) =
      List.replicate 8 (2 : ℚ) ∧
    extcodeDistribComp (localSlice 2 (List.replicate 15 (1 : ℚ)) 1) =
      List.replicate 7 (2 : ℚ) ∧
    summerLocalSum (extcodeDistribComp (localSlice 2 (List.replicate 15 (1 : ℚ)) 0)) = 16 ∧
    summerLocalSum (extcodeDistribComp (localSlice 2 (List.replicate 15 (1 : ℚ)) 1)) = 14 ∧
    summerOut 2 (fun r => extcodeDistribComp (localSlice 2 (List.replicate 15 (1 : ℚ)) r)) = 30 := by
  refine ⟨by decide, ?_, ?_, ?_, ?_, ?_⟩ <;>
    norm_num [extcodeDistribComp, localSlice, summerLocalSum, summerOut, allreduceSum,
      distribOffset, distribSize, List.replicate_succ, List.range_succ]

/-! ## Theorems: working directory (claims C3 and C7) -/

/-- C3 counterexample: a concrete invocation whose external command exits with
status 1 returns with the working directory still set to the run directory,
not restored to the caller's directory, so the scoped-restore claim fails on
the code. -/
theorem stageCompute_leaks_cwd_on_failure :
    (stageCompute ℚ ('r' :: ['u', 'n']) ('h' :: ['o', 'm', 'e'])
        { writeOk := true, exitCode := 1, parseOk := true, outputVal := 0 }).finalCwd =
      'r' :: ['u', 'n'] ∧
    ('r' :: ['u', 'n'] : List Char) ≠ 'h' :: ['o', 'm', 'e'] := by
  constructor
  · rfl
  · decide

/-- C3 amended: the caller's working directory is restored on a normal return,
but on any error exit — input-file write failure, non-zero external exit, or
output-parse failure — `compute` leaves the process in the run directory. -/
theorem stageCompute_cwd (α : Type) (runDirectory startCwd : List Char)
    (env : StageEnv α) :
    ((stageCompute α runDirectory startCwd env).result.isOk →
      (stageCompute α runDirectory startCwd env).finalCwd = startCwd) ∧
    (∀ e, (stageCompute α runDirectory startCwd env).result = .error e →
      (stageCompute α runDirectory startCwd env).finalCwd = runDirectory) := by
  unfold stageCompute
  split
  · exact ⟨fun h => by simp [Except.isOk, Except.toBool] at h, fun e _ => rfl⟩
  · split
    · exact ⟨fun h => by simp [Except.isOk, Except.toBool] at h, fun e _ => rfl⟩
    · split
      · exact ⟨fun h => by simp [Except.isOk, Except.toBool] at h, fun e _ => rfl⟩
      · exact ⟨fun _ => rfl, fun e he => by simp at he⟩

/-- C3 amended witness: a successful concrete invocation ends back in the
caller's directory. -/
theorem stageCompute_cwd_witness :
    (stageCompute ℚ ['r'] ['h']
        { writeOk := true, exitCode := 0, parseOk := true, outputVal := 7 }).finalCwd = ['h'] :=
  (stageCompute_cwd ℚ ['r'] ['h']
    { writeOk := true, exitCode := 0, parseOk := true, outputVal := 7 }).1 (by decide)

/-- C7: when the external command exits with a non-zero status (and the input
file was written, so the command was actually reached), the stage raises
`ExternalProcessError` carrying that exit code, the output file is never
parsed, and no substitute value is returned. -/
theorem stageCompute_nonzero_exit (α : Type) (runDirectory startCwd : List Char)
    (env : StageEnv α) (hw : env.writeOk = true) (hx : env.exitCode ≠ 0) :
    (stageCompute α runDirectory startCwd env).result =
      .error (.externalProcessError env.exitCode) ∧
    (stageCompute α runDirectory startCwd env).parsedOutput = false := by
  unfold stageCompute
  rw [hw]
  simp [hx]

/-- C7 witness at exit status 3. -/
theorem stageCompute_nonzero_exit_witness :
    (stageCompute ℚ ['r'] ['h']
        { writeOk := true, exitCode := 3, parseOk := true, outputVal := 0 }).result =
      .error (.externalProcessError 3) ∧
    (stageCompute ℚ ['r'] ['h']
        { writeOk := true, exitCode := 3, parseOk := true, outputVal := 0 }).parsedOutput =
      false :=
  stageCompute_nonzero_exit ℚ ['r'] ['h']
    { writeOk := true, exitCode := 3, parseOk := true, outputVal := 0 } rfl (by decide)

/-! ## Theorems: run-directory creation (claim C4) -/

/-- C4 counterexample: creating `run` under a non-writable root is a
permission failure, not an already-exists case, yet the code's bare
`except: pass` reports silent success where the spec's narrow handler raises
`DirectoryCreationError`. -/
theorem ensureDirectory_swallows_permission_error :
    osMkdir roFs [['r', 'u', 'n']] = .error .permissionDenied ∧
    OSError.permissionDenied ≠ OSError.fileExists ∧
    (ensureDirectory roFs [['r', 'u', 'n']]).2 = .ok () ∧
    (ensureDirectorySpec roFs [['r', 'u', 'n']]).2 =
      .error (.directoryCreationError .permissionDenied) := by
  refine ⟨rfl, by decide, ?_, ?_⟩ <;> rfl

/-- C4 amended: the code's directory creation never surfaces any error — every
`os.mkdir` failure (already exists, permission denied, parent missing, parent
a regular file) is swallowed alike; on failure the filesystem is unchanged and
on success the directory is created. -/
theorem ensureDirectory_never_fails (fs : FileSystem) (path : List (List Char)) :
    (ensureDirectory fs path).2 = .ok () ∧
    (∀ fs2, osMkdir fs path = .ok fs2 → (ensureDirectory fs path).1 = fs2) ∧
    (∀ e, osMkdir fs path = .error e → (ensureDirectory fs path).1 = fs) := by
  refine ⟨?_, ?_, ?_⟩
  · unfold ensureDirectory
    cases osMkdir fs path <;> rfl
  · intro fs2 h
    unfold ensureDirectory
    rw [h]
  · intro e h
    unfold ensureDirectory
    rw [h]

/-- C4 amended witness: on the read-only root the code reports success and
leaves the filesystem unchanged. -/
theorem ensureDirectory_never_fails_witness :
    (ensureDirectory roFs [['r', 'u', 'n']]).2 = .ok () ∧
    (ensureDirectory roFs [['r', 'u', 'n']]).1 = roFs :=
  ⟨(ensureDirectory_never_fails roFs [['r', 'u', 'n']]).1,
    (ensureDirectory_never_fails roFs [['r', 'u', 'n']]).2.2 .permissionDenied rfl⟩

/-! ## Theorems: the MPI guard (claim C10) -/

/-- C10: loading the distributed example without MPI raises `RuntimeError`
before any stage or directory is set up — the effect list is empty and the
result is the error, not a single-process fallback run; with MPI available the
load performs the setup. -/
theorem mpiExampleModuleLoad_requires_mpi :
    (mpiExampleModuleLoad false 0).2 = .error () ∧
    (mpiExampleModuleLoad false 0).1 = [] ∧
    (mpiExampleModuleLoad true 0).2 = .ok () ∧
    (mpiExampleModuleLoad true 0).1 ≠ [] := by
  refine ⟨rfl, rfl, rfl, by decide⟩


/-! ## Theorems: decimal digits and runs -/

lemma digitChar_facts (d : ℕ) (hd : d < 10) :
    charDigitVal (digitChar d) = some d ∧ digitChar d ≠ '_' ∧ digitChar d ≠ '.' ∧
    digitChar d ≠ 'e' ∧ digitChar d ≠ 'E' ∧ digitChar d ≠ '-' ∧ digitChar d ≠ '+' ∧
    isPyWs (digitChar d) = false := by
  have h : d = 0 ∨ d = 1 ∨ d = 2 ∨ d = 3 ∨ d = 4 ∨ d = 5 ∨ d = 6 ∨ d = 7 ∨ d = 8 ∨ d = 9 := by
    omega
  rcases h with rfl | rfl | rfl | rfl | rfl | rfl | rfl | rfl | rfl | rfl <;> decide

lemma natDigitsAux_zero (fuel : ℕ) : natDigitsAux fuel 0 = [] := by
  cases fuel <;> rfl

lemma natDigitsAux_succ (fuel m : ℕ) :
    natDigitsAux (fuel + 1) (m + 1) = (m + 1) % 10 :: natDigitsAux fuel ((m + 1) / 10) := rfl

lemma natDigitsAux_lt (fuel : ℕ) : ∀ n, ∀ d ∈ natDigitsAux fuel n, d < 10 := by
  induction fuel with
  | zero => intro n d hd; simp [natDigitsAux] at hd
  | succ fuel ih =>
      intro n d hd
      cases n with
      | zero => simp [natDigitsAux_zero] at hd
      | succ m =>
          rw [natDigitsAux_succ] at hd
          rcases List.mem_cons.mp hd with rfl | hd
          · exact Nat.mod_lt _ (by omega)
          · exact ih _ d hd

lemma natDigitsAux_ofDigits (fuel : ℕ) : ∀ n, n ≤ fuel →
    Nat.ofDigits 10 (natDigitsAux fuel n) = n := by
  induction fuel with
  | zero => intro n h; interval_cases n; simp [natDigitsAux]
  | succ fuel ih =>
      intro n h
      cases n with
      | zero => simp [natDigitsAux_zero]
      | succ m =>
          rw [natDigitsAux_succ, Nat.ofDigits_cons, ih _ (by omega)]
          omega

lemma natDigitsAux_length (k : ℕ) : ∀ fuel n, n ≤ fuel → 10 ^ k ≤ n → n < 10 ^ (k + 1) →
    (natDigitsAux fuel n).length = k + 1 := by
  induction k with
  | zero =>
      intro fuel n hf h1 h2
      norm_num at h1 h2
      cases fuel with
      | zero => omega
      | succ fuel =>
          cases n with
          | zero => omega
          | succ m =>
              rw [natDigitsAux_succ]
              have hzero : (m + 1) / 10 = 0 := by omega
              rw [hzero, natDigitsAux_zero]
              rfl
  | succ k ih =>
      intro fuel n hf h1 h2
      have h10 : (10 : ℕ) ^ (k + 1) ≥ 10 := by
        calc (10 : ℕ) ^ (k + 1) ≥ 10 ^ 1 := Nat.pow_le_pow_right (by omega) (by omega)
        _ = 10 := by norm_num
      cases fuel with
      | zero => omega
      | succ fuel =>
          cases n with
          | zero => omega
          | succ m =>
              rw [natDigitsAux_succ]
              have hd1 : 10 ^ k ≤ (m + 1) / 10 := by
                rw [Nat.le_div_iff_mul_le (by omega)]
                calc 10 ^ k * 10 = 10 ^ (k + 1) := by rw [pow_succ]
                _ ≤ m + 1 := h1
              have hd2 : (m + 1) / 10 < 10 ^ (k + 1) := by
                rw [Nat.div_lt_iff_lt_mul (by omega)]
                calc m + 1 < 10 ^ (k + 2) := h2
                _ = 10 ^ (k + 1) * 10 := by rw [pow_succ]
              have hdf : (m + 1) / 10 ≤ fuel := by
                have := Nat.div_lt_self (show 0 < m + 1 by omega) (show 1 < 10 by omega)
                omega
              rw [List.length_cons, ih fuel _ hdf hd1 hd2]

lemma natDigitsAux_ne_nil (fuel n : ℕ) (h1 : 0 < n) : natDigitsAux (fuel + 1) n ≠ [] := by
  cases n with
  | zero => omega
  | succ m => rw [natDigitsAux_succ]; simp

lemma bigDigits_lt (n : ℕ) : ∀ d ∈ bigDigits n, d < 10 := by
  intro d hd
  unfold bigDigits at hd
  split at hd
  · simp at hd; omega
  · rw [List.mem_reverse] at hd
    exact natDigitsAux_lt _ _ d hd

lemma bigDigits_ne_nil (n : ℕ) : bigDigits n ≠ [] := by
  unfold bigDigits
  split
  · simp
  · simp only [ne_eq, List.reverse_eq_nil_iff]
    cases n with
    | zero => omega
    | succ m => exact natDigitsAux_ne_nil _ _ (by omega)

lemma foldl_acc (ds : List ℕ) (acc : ℕ) :
    ds.foldl (fun a d => 10 * a + d) acc = acc * 10 ^ ds.length + Nat.ofDigits 10 ds.reverse := by
  induction ds generalizing acc with
  | nil => simp [Nat.ofDigits]
  | cons d tl ih =>
      rw [List.foldl_cons, ih, List.reverse_cons, Nat.ofDigits_append]
      simp [Nat.ofDigits_singleton, pow_succ]
      ring

lemma bigDigits_foldl (n : ℕ) :
    (bigDigits n).foldl (fun a d => 10 * a + d) 0 = n := by
  unfold bigDigits
  split
  · simp_all
  · rw [foldl_acc, List.reverse_reverse, natDigitsAux_ofDigits n n le_rfl]
    omega

lemma bigDigits_length (n k : ℕ) (h1 : 10 ^ k ≤ n) (h2 : n < 10 ^ (k + 1)) :
    (bigDigits n).length = k + 1 := by
  unfold bigDigits
  split
  · next h => subst h; simp at h1
  · rw [List.length_reverse]
    exact natDigitsAux_length k n n le_rfl h1 h2

lemma digitRunAux_digits (ds : List ℕ) (hds : ∀ d ∈ ds, d < 10) (acc cnt : ℕ) :
    digitRunAux (ds.map digitChar) acc cnt =
      some (ds.foldl (fun a d => 10 * a + d) acc, cnt + ds.length) := by
  induction ds generalizing acc cnt with
  | nil => rfl
  | cons d tl ih =>
      have hfacts := digitChar_facts d (hds d (List.mem_cons_self d tl))
      rw [List.map_cons, digitRunAux.eq_def]
      simp only [if_neg hfacts.2.1, hfacts.1]
      rw [ih (fun x hx => hds x (List.mem_cons_of_mem _ hx))]
      simp [List.foldl_cons]
      omega

lemma digitRunVal_digits (ds : List ℕ) (hne : ds ≠ []) (hds : ∀ d ∈ ds, d < 10) :
    digitRunVal (ds.map digitChar) =
      some (ds.foldl (fun a d => 10 * a + d) 0, ds.length) := by
  cases ds with
  | nil => exact absurd rfl hne
  | cons d tl =>
      have hfacts := digitChar_facts d (hds d (List.mem_cons_self d tl))
      rw [List.map_cons, digitRunVal.eq_def]
      simp only [hfacts.1]
      rw [digitRunAux_digits tl (fun x hx => hds x (List.mem_cons_of_mem _ hx))]
      simp [List.foldl_cons]
      omega

lemma digitRunVal_natChars (n : ℕ) :
    digitRunVal (natChars n) = some (n, (bigDigits n).length) := by
  rw [natChars, digitRunVal_digits _ (bigDigits_ne_nil n) (bigDigits_lt n), bigDigits_foldl]

lemma foldl_zeros (j : ℕ) (ds : List ℕ) :
    (List.replicate j 0 ++ ds).foldl (fun a d => 10 * a + d) 0 =
      ds.foldl (fun a d => 10 * a + d) 0 := by
  induction j with
  | zero => rfl
  | succ j ih => simpa [List.replicate_succ] using ih

lemma leftPadZeros_natChars (w n : ℕ) :
    leftPadZeros w (natChars n) =
      (List.replicate (w - (bigDigits n).length) 0 ++ bigDigits n).map digitChar := by
  rw [leftPadZeros, natChars, List.map_append, List.map_replicate, List.length_map]
  rfl

lemma digitRunVal_leftPad (w n : ℕ) :
    digitRunVal (leftPadZeros w (natChars n)) =
      some (n, w - (bigDigits n).length + (bigDigits n).length) := by
  rw [leftPadZeros_natChars]
  rw [digitRunVal_digits]
  · rw [foldl_zeros, bigDigits_foldl]
    simp
  · simp [bigDigits_ne_nil n]
  · intro d hd
    rcases List.mem_append.mp hd with h | h
    · rw [List.eq_of_mem_replicate h]; omega
    · exact bigDigits_lt n d h

/-! ## Theorems: takeWhile, dropWhile and whitespace helpers -/

lemma takeWhile_all (p : Char → Bool) (l : List Char) (h : ∀ c ∈ l, p c = true) :
    l.takeWhile p = l := by
  induction l with
  | nil => rfl
  | cons c tl ih =>
      rw [List.takeWhile_cons, h c (List.mem_cons_self c tl)]
      rw [ih fun x hx => h x (List.mem_cons_of_mem _ hx)]
      simp

lemma takeWhile_middle (p : Char → Bool) (l1 : List Char) (c : Char) (l2 : List Char)
    (h1 : ∀ x ∈ l1, p x = true) (hc : p c = false) :
    (l1 ++ c :: l2).takeWhile p = l1 ∧ (l1 ++ c :: l2).dropWhile p = c :: l2 := by
  induction l1 with
  | nil => simp [List.takeWhile_cons, List.dropWhile_cons, hc]
  | cons a tl ih =>
      have ha := h1 a (List.mem_cons_self a tl)
      obtain ⟨iht, ihd⟩ := ih fun x hx => h1 x (List.mem_cons_of_mem _ hx)
      constructor
      · rw [List.cons_append, List.takeWhile_cons, ha, iht]
        simp
      · rw [List.cons_append, List.dropWhile_cons, ha]
        simpa using ihd

lemma dropWhile_no (p : Char → Bool) (l : List Char) (h : ∀ c ∈ l, p c = false) :
    l.dropWhile p = l := by
  cases l with
  | nil => rfl
  | cons c tl => rw [List.dropWhile_cons, h c (List.mem_cons_self c tl)]; simp

lemma stripWs_id (l : List Char) (h : ∀ c ∈ l, isPyWs c = false) :
    ((l.dropWhile isPyWs).reverse.dropWhile isPyWs).reverse = l := by
  rw [dropWhile_no _ _ h, dropWhile_no, List.reverse_reverse]
  intro c hc
  exact h c (List.mem_reverse.mp hc)


/-! ## Theorems: parsing a rendered scientific line -/

lemma mem_natChars (c : Char) (n : ℕ) (hc : c ∈ natChars n) :
    ∃ d, d < 10 ∧ c = digitChar d := by
  rw [natChars] at hc
  obtain ⟨d, hd, rfl⟩ := List.mem_map.mp hc
  exact ⟨d, bigDigits_lt n d hd, rfl⟩

lemma mem_leftPad (c : Char) (w n : ℕ) (hc : c ∈ leftPadZeros w (natChars n)) :
    ∃ d, d < 10 ∧ c = digitChar d := by
  rw [leftPadZeros_natChars] at hc
  obtain ⟨d, hd, rfl⟩ := List.mem_map.mp hc
  rcases List.mem_append.mp hd with h | h
  · exact ⟨d, by rw [List.eq_of_mem_replicate h]; omega, rfl⟩
  · exact ⟨d, bigDigits_lt n d h, rfl⟩

lemma parseMantissa_render (m : ℕ) (h1 : 10 ^ 18 ≤ m) (h2 : m < 10 ^ 19) :
    parseMantissa ((natChars m).take 1 ++ '.' :: (natChars m).drop 1) = some (m, 18) := by
  have hlen : (bigDigits m).length = 19 := bigDigits_length m 18 h1 h2
  obtain ⟨d0, tl, hds⟩ : ∃ d0 tl, bigDigits m = d0 :: tl := by
    cases h : bigDigits m with
    | nil => exact absurd h (bigDigits_ne_nil m)
    | cons a b => exact ⟨a, b, rfl⟩
  have htl : tl.length = 18 := by
    have h19 := hlen
    rw [hds] at h19
    simpa using h19
  have hd0 : d0 < 10 := bigDigits_lt m d0 (by rw [hds]; exact List.mem_cons_self _ _)
  have htl10 : ∀ d ∈ tl, d < 10 := fun d hd =>
    bigDigits_lt m d (by rw [hds]; exact List.mem_cons_of_mem _ hd)
  have hnc : natChars m = digitChar d0 :: tl.map digitChar := by
    rw [natChars, hds, List.map_cons]
  have htake : (natChars m).take 1 = [digitChar d0] := by rw [hnc]; rfl
  have hdrop : (natChars m).drop 1 = tl.map digitChar := by rw [hnc]; rfl
  rw [htake, hdrop]
  have hfacts0 := digitChar_facts d0 hd0
  have hall : ∀ x ∈ [digitChar d0], (fun c => !(c == '.')) x = true := by
    intro x hx
    simp only [List.mem_singleton] at hx
    subst hx
    simp [beq_eq_false_iff_ne, hfacts0.2.2.1]
  have hsplit := takeWhile_middle (fun c => !(c == '.')) [digitChar d0] '.'
    (tl.map digitChar) hall (by simp)
  rw [parseMantissa, hsplit.1, hsplit.2]
  have hany : (tl.map digitChar).any (fun c => c == '.') = false := by
    rw [List.any_eq_false]
    intro c hc
    obtain ⟨d, hd, rfl⟩ := List.mem_map.mp hc
    have hne := (digitChar_facts d (htl10 d hd)).2.2.1
    simp [beq_eq_false_iff_ne, hne]
  obtain ⟨t0, ttl, rfl⟩ : ∃ t0 ttl, tl = t0 :: ttl := by
    cases tl with
    | nil => simp at htl
    | cons a b => exact ⟨a, b, rfl⟩
  rw [List.map_cons, parseMantissaCore]
  simp only [← List.map_cons, hany, Bool.false_eq_true, if_false]
  have hip : digitRunVal [digitChar d0] = some (d0, 1) := by
    have h := digitRunVal_digits [d0] (by simp) (by simpa using hd0)
    simpa using h
  have hfp : digitRunVal (List.map digitChar (t0 :: ttl)) =
      some ((t0 :: ttl).foldl (fun a d => 10 * a + d) 0, (t0 :: ttl).length) :=
    digitRunVal_digits _ (by simp) htl10
  rw [hip, hfp]
  simp only [Option.some.injEq, Prod.mk.injEq]
  constructor
  · have hfold := bigDigits_foldl m
    rw [hds, List.foldl_cons] at hfold
    rw [foldl_acc] at hfold
    rw [foldl_acc]
    simp only [List.foldl_nil] at *
    rw [htl] at *
    omega
  · exact htl

lemma parseExpPart_render (e2 : ℤ) :
    parseExpPart ((if e2 < 0 then '-' else '+') :: leftPadZeros 2 (natChars e2.natAbs)) =
      some e2 := by
  rcases lt_or_ge e2 0 with h | h
  · rw [if_pos h, parseExpPart]
    rw [if_pos rfl, digitRunVal_leftPad]
    simp only [Option.map_some', Option.some.injEq]
    omega
  · rw [if_neg (not_lt.mpr h), parseExpPart]
    rw [if_neg (by decide), if_pos rfl, digitRunVal_leftPad]
    simp only [Option.map_some', Option.some.injEq]
    omega

lemma isInfWord_length (cs : List Char) (h : isInfWord cs = true) :
    cs.length = 3 ∨ cs.length = 8 := by
  rw [isInfWord, Bool.or_eq_true, beq_iff_eq, beq_iff_eq] at h
  rcases h with h | h
  · left
    have h2 := congrArg List.length h
    simpa using h2
  · right
    have h2 := congrArg List.length h
    simpa using h2

lemma isNanWord_length (cs : List Char) (h : isNanWord cs = true) : cs.length = 3 := by
  rw [isNanWord, beq_iff_eq] at h
  have h2 := congrArg List.length h
  simpa using h2

lemma pyFloat_sciShape (neg : Bool) (m : ℕ) (h1 : 10 ^ 18 ≤ m) (h2 : m < 10 ^ 19) (e2 : ℤ) :
    pyFloat (sciShape neg m e2) =
      some (.num ((if neg then (-1 : ℚ) else 1) * (m : ℚ) * (10 : ℚ) ^ (e2 - 18))) := by
  have hlen : (bigDigits m).length = 19 := bigDigits_length m 18 h1 h2
  obtain ⟨d0, tl, hds⟩ : ∃ d0 tl, bigDigits m = d0 :: tl := by
    cases h : bigDigits m with
    | nil => exact absurd h (bigDigits_ne_nil m)
    | cons a b => exact ⟨a, b, rfl⟩
  have htl : tl.length = 18 := by
    have h19 := hlen
    rw [hds] at h19
    simpa using h19
  have hd0 : d0 < 10 := bigDigits_lt m d0 (by rw [hds]; exact List.mem_cons_self _ _)
  have hnc : natChars m = digitChar d0 :: tl.map digitChar := by
    rw [natChars, hds, List.map_cons]
  have htake : (natChars m).take 1 = [digitChar d0] := by rw [hnc]; rfl
  have hdrop : (natChars m).drop 1 = tl.map digitChar := by rw [hnc]; rfl
  set mantPart : List Char := (natChars m).take 1 ++ ('.' :: (natChars m).drop 1) with hmant
  set expTail : List Char :=
    (if e2 < 0 then '-' else '+') :: leftPadZeros 2 (natChars e2.natAbs) with hexp
  set B : List Char := mantPart ++ ('e' :: expTail) with hB
  have hmantMem : ∀ c ∈ mantPart, (∃ d, d < 10 ∧ c = digitChar d) ∨ c = '.' := by
    intro c hc
    rw [hmant] at hc
    rcases List.mem_append.mp hc with h | h
    · exact .inl (mem_natChars c m (List.mem_of_mem_take h))
    · rcases List.mem_cons.mp h with rfl | h
      · exact .inr rfl
      · exact .inl (mem_natChars c m (List.mem_of_mem_drop h))
  have hexpMem : ∀ c ∈ expTail, (∃ d, d < 10 ∧ c = digitChar d) ∨ c = '-' ∨ c = '+' := by
    intro c hc
    rw [hexp] at hc
    rcases List.mem_cons.mp hc with rfl | h
    · split_ifs <;> simp
    · exact .inl (mem_leftPad c 2 _ h)
  have hBMem : ∀ c ∈ B, isPyWs c = false := by
    intro c hc
    rw [hB] at hc
    rcases List.mem_append.mp hc with h | h
    · rcases hmantMem c h with ⟨d, hd, rfl⟩ | rfl
      · exact (digitChar_facts d hd).2.2.2.2.2.2.2
      · decide
    · rcases List.mem_cons.mp h with rfl | h
      · decide
      · rcases hexpMem c h with ⟨d, hd, rfl⟩ | rfl | rfl
        · exact (digitChar_facts d hd).2.2.2.2.2.2.2
        · decide
        · decide
  have hsciEq : sciShape neg m e2 = (if neg then ['-'] else []) ++ B := rfl
  have hstrip : stripWs (sciShape neg m e2) = (if neg then ['-'] else []) ++ B := by
    rw [hsciEq, stripWs]
    apply stripWs_id
    intro c hc
    rcases List.mem_append.mp hc with h | h
    · have hc2 : c = '-' := by
        cases neg with
        | false => simp at h
        | true => simpa using h
      rw [hc2]
      decide
    · exact hBMem c h
  have hBhead : B = digitChar d0 :: ('.' :: (tl.map digitChar ++ ('e' :: expTail))) := by
    rw [hB, hmant, htake, hdrop]
    simp
  have hsign : splitSign ((if neg then ['-'] else []) ++ B) = (neg, B) := by
    rcases neg with _ | _
    · rw [if_neg (by decide)]
      rw [List.nil_append, hBhead, splitSign]
      have hf := digitChar_facts d0 hd0
      rw [if_neg hf.2.2.2.2.2.1, if_neg hf.2.2.2.2.2.2.1]
    · rw [if_pos rfl, List.singleton_append, splitSign, if_pos rfl]
  have hBlen : 20 ≤ B.length := by
    rw [hB, hmant, htake, hdrop]
    simp [htl]
  have hInf : isInfWord B = false := by
    cases h : isInfWord B
    · rfl
    · rcases isInfWord_length B h with hl | hl <;> omega
  have hNan : isNanWord B = false := by
    cases h : isNanWord B
    · rfl
    · have := isNanWord_length B h
      omega
  have hmantAll : ∀ x ∈ mantPart, (fun c => !(c == 'e' || c == 'E')) x = true := by
    intro x hx
    rcases hmantMem x hx with ⟨d, hd, rfl⟩ | rfl
    · have hf := digitChar_facts d hd
      simp [beq_eq_false_iff_ne, hf.2.2.2.1, hf.2.2.2.2.1]
    · decide
  have hsplitE := takeWhile_middle (fun c => !(c == 'e' || c == 'E')) mantPart 'e' expTail
    hmantAll (by decide)
  rw [pyFloat, hstrip, hsign]
  rw [pyFloatCore, hInf, hNan]
  simp only [Bool.false_eq_true, if_false]
  rw [hB, hsplitE.1, hsplitE.2]
  rw [pyFloatNumber]
  rw [hmant, parseMantissa_render m h1 h2, hexp, parseExpPart_render]
  norm_num


/-! ## Theorems: rounding and the round trip through `"%.18e"` -/

lemma abs_rnd_sub (x : ℚ) : |(rnd x : ℚ) - x| ≤ 1 / 2 := by
  have h1 := Int.floor_le x
  have h2 := Int.lt_floor_add_one x
  rw [rnd]
  split_ifs with ha hb hc <;>
    · rw [abs_le]
      constructor <;> push_cast <;> linarith

lemma rnd_intCast (n : ℤ) : rnd ((n : ℚ)) = n := by
  rw [rnd, Int.floor_intCast]
  norm_num

lemma pyFloat_sci18_zero : pyFloat (sci18 0) = some (.num 0) := by
  have h : sci18 0 = '0' :: '.' :: (List.replicate 18 '0' ++ ['e', '+', '0', '0']) := by
    rw [sci18, if_pos rfl]
  rw [h]
  simp +decide [pyFloat, pyFloatCore, pyFloatNumber, stripWs, splitSign,
    isInfWord, isNanWord, asciiLower, parseMantissa, parseMantissaCore, digitRunVal,
    digitRunAux, charDigitVal, parseExpPart, isPyWs, List.replicate, List.dropWhile,
    List.takeWhile]

lemma zpow_mul_zpow (a b : ℤ) : (10 : ℚ) ^ a * (10 : ℚ) ^ b = 10 ^ (a + b) :=
  (zpow_add₀ (by norm_num) a b).symm

lemma cast18 : ((10 ^ 18 : ℤ) : ℚ) = (10 : ℚ) ^ (18 : ℤ) := by
  push_cast
  norm_num

lemma cast19 : ((10 ^ 19 : ℤ) : ℚ) = (10 : ℚ) ^ (19 : ℤ) := by
  push_cast
  norm_num

lemma pyFloat_sci18 (q : ℚ) :
    ∃ q2 : ℚ, pyFloat (sci18 q) = some (.num q2) ∧ |q2 - q| ≤ halfUlp q ∧
      (∀ k : ℤ, |q| = (k : ℚ) * (10 : ℚ) ^ (Int.log 10 |q| - 18) → q2 = q) := by
  by_cases hq : q = 0
  · subst hq
    exact ⟨0, pyFloat_sci18_zero, by simp [halfUlp], fun k hk => rfl⟩
  · set e := Int.log 10 |q| with he
    have habs : 0 < |q| := abs_pos.mpr hq
    have hlow : (10 : ℚ) ^ e ≤ |q| := by
      have h := Int.zpow_log_le_self (b := 10) (R := ℚ) (by norm_num) habs
      rw [he]
      simpa using h
    have hhigh : |q| < (10 : ℚ) ^ (e + 1) := by
      have h := Int.lt_zpow_succ_log_self (b := 10) (R := ℚ) (by norm_num) |q|
      rw [he]
      simpa using h
    set x := |q| * (10 : ℚ) ^ ((18 : ℤ) - e) with hx
    have hp : (0 : ℚ) < (10 : ℚ) ^ ((18 : ℤ) - e) := zpow_pos (by norm_num) _
    have hx1 : (10 : ℚ) ^ (18 : ℤ) ≤ x := by
      have h := mul_le_mul_of_nonneg_right hlow (le_of_lt hp)
      rw [zpow_mul_zpow] at h
      have h2 : e + (18 - e) = 18 := by ring
      rw [h2] at h
      exact h
    have hx2 : x < (10 : ℚ) ^ (19 : ℤ) := by
      have h := mul_lt_mul_of_pos_right hhigh hp
      rw [zpow_mul_zpow] at h
      have h2 : e + 1 + (18 - e) = 19 := by ring
      rw [h2] at h
      exact h
    have hrle := abs_le.mp (abs_rnd_sub x)
    have hrl : (10 ^ 18 : ℤ) ≤ rnd x := by
      by_contra hcon
      push_neg at hcon
      have hc2 : ((rnd x : ℤ) : ℚ) ≤ ((10 ^ 18 - 1 : ℤ) : ℚ) := by
        exact_mod_cast (by omega : rnd x ≤ 10 ^ 18 - 1)
      rw [Int.cast_sub, Int.cast_one, cast18] at hc2
      linarith [hrle.2, hx1]
    have hru : rnd x ≤ 10 ^ 19 := by
      by_contra hcon
      push_neg at hcon
      have hc2 : ((10 ^ 19 + 1 : ℤ) : ℚ) ≤ ((rnd x : ℤ) : ℚ) := by
        exact_mod_cast (by omega : 10 ^ 19 + 1 ≤ rnd x)
      rw [Int.cast_add, Int.cast_one, cast19] at hc2
      linarith [hrle.1, hx2]
    have hrpos : (0 : ℤ) ≤ rnd x := le_trans (by norm_num) hrl
    have htn : (((rnd x).toNat : ℤ)) = rnd x := Int.toNat_of_nonneg hrpos
    have htnq : (((rnd x).toNat : ℚ)) = ((rnd x : ℤ) : ℚ) := by
      exact_mod_cast htn
    have hq2 : pyFloat (sci18 q) =
        some (.num ((if q < 0 then (-1 : ℚ) else 1) * ((rnd x : ℤ) : ℚ) *
          (10 : ℚ) ^ (e - 18))) := by
      by_cases hcar : (rnd x).toNat = 10 ^ 19
      · have hs : sci18 q = sciShape (decide (q < 0)) (10 ^ 18) (e + 1) := by
          rw [sci18, if_neg hq, ← he, ← hx, if_pos hcar]
        rw [hs, pyFloat_sciShape _ _ (by norm_num) (by norm_num) _]
        have hrx19 : rnd x = 10 ^ 19 := by omega
        have hrx : ((rnd x : ℤ) : ℚ) = (10 : ℚ) ^ (19 : ℤ) := by
          rw [hrx19]
          exact cast19
        have hc : ((10 ^ 18 : ℕ) : ℚ) = (10 : ℚ) ^ (18 : ℤ) := by
          push_cast
          norm_num
        have hval : (if decide (q < 0) = true then (-1 : ℚ) else 1) * ((10 ^ 18 : ℕ) : ℚ) *
            (10 : ℚ) ^ (e + 1 - 18) =
            (if q < 0 then (-1 : ℚ) else 1) * ((rnd x : ℤ) : ℚ) * (10 : ℚ) ^ (e - 18) := by
          simp only [decide_eq_true_iff]
          rw [hrx, hc, mul_assoc, mul_assoc, zpow_mul_zpow, zpow_mul_zpow]
          rw [show (18 : ℤ) + (e + 1 - 18) = 19 + (e - 18) from by ring]
        rw [hval]
      · have hs : sci18 q = sciShape (decide (q < 0)) (rnd x).toNat e := by
          rw [sci18, if_neg hq, ← he, ← hx, if_neg hcar]
        have hmlow : 10 ^ 18 ≤ (rnd x).toNat := by omega
        have hmhigh : (rnd x).toNat < 10 ^ 19 := by
          have h := hru
          omega
        rw [hs, pyFloat_sciShape _ _ hmlow hmhigh _]
        rw [htnq]
        simp [decide_eq_true_iff]
    refine ⟨_, hq2, ?_, ?_⟩
    · have hxval : x * (10 : ℚ) ^ (e - 18) = |q| := by
        rw [hx, mul_assoc, zpow_mul_zpow]
        have h2 : (18 : ℤ) - e + (e - 18) = 0 := by ring
        rw [h2, zpow_zero, mul_one]
      have hhu : halfUlp q = (10 : ℚ) ^ (e - 18) / 2 := by
        rw [halfUlp, if_neg hq, ← he]
      have hpq : (0 : ℚ) < (10 : ℚ) ^ (e - 18) := zpow_pos (by norm_num) _
      have hkey : abs (((rnd x : ℤ) : ℚ) * (10 : ℚ) ^ (e - 18) - |q|) ≤
          (10 : ℚ) ^ (e - 18) / 2 := by
        rw [← hxval, ← sub_mul, abs_mul, abs_of_pos hpq]
        calc |((rnd x : ℤ) : ℚ) - x| * (10 : ℚ) ^ (e - 18)
            ≤ (1 / 2) * (10 : ℚ) ^ (e - 18) :=
              mul_le_mul_of_nonneg_right (abs_rnd_sub x) (le_of_lt hpq)
          _ = (10 : ℚ) ^ (e - 18) / 2 := by ring
      rw [hhu]
      rcases lt_or_gt_of_ne hq with hneg | hpos
      · rw [if_pos hneg]
        have habsq : |q| = -q := abs_of_neg hneg
        calc |(-1 : ℚ) * ((rnd x : ℤ) : ℚ) * (10 : ℚ) ^ (e - 18) - q|
            = abs (((rnd x : ℤ) : ℚ) * (10 : ℚ) ^ (e - 18) - |q|) := by
              rw [habsq]
              rw [show (-1 : ℚ) * ((rnd x : ℤ) : ℚ) * (10 : ℚ) ^ (e - 18) - q =
                -(((rnd x : ℤ) : ℚ) * (10 : ℚ) ^ (e - 18) - -q) from by ring]
              rw [abs_neg]
          _ ≤ (10 : ℚ) ^ (e - 18) / 2 := hkey
      · rw [if_neg (by linarith)]
        have habsq : |q| = q := abs_of_pos hpos
        calc |(1 : ℚ) * ((rnd x : ℤ) : ℚ) * (10 : ℚ) ^ (e - 18) - q|
            = abs (((rnd x : ℤ) : ℚ) * (10 : ℚ) ^ (e - 18) - |q|) := by
              rw [habsq, one_mul]
          _ ≤ (10 : ℚ) ^ (e - 18) / 2 := hkey
    · intro k hk
      have hxk : x = (k : ℚ) := by
        rw [hx, hk, mul_assoc, zpow_mul_zpow]
        have h2 : e - 18 + (18 - e) = 0 := by ring
        rw [h2, zpow_zero, mul_one]
      have hrk : rnd x = k := by rw [hxk, rnd_intCast]
      have hqv : ((rnd x : ℤ) : ℚ) * (10 : ℚ) ^ (e - 18) = |q| := by
        rw [hrk, ← hk]
      rcases lt_or_gt_of_ne hq with hneg | hpos
      · rw [if_pos hneg, mul_assoc, hqv, abs_of_neg hneg]
        ring
      · rw [if_neg (by linarith), mul_assoc, hqv, abs_of_pos hpos]
        ring


/-! ## Theorems: line shapes of the two formats -/

lemma sciShape_no_ws (neg : Bool) (m : ℕ) (e2 : ℤ) :
    ∀ c ∈ sciShape neg m e2, isPyWs c = false := by
  intro c hc
  rw [sciShape] at hc
  rcases List.mem_append.mp hc with h | h
  · have hc2 : c = '-' := by
      cases neg with
      | false => simp at h
      | true => simpa using h
    rw [hc2]
    decide
  · rcases List.mem_append.mp h with h2 | h2
    · rcases List.mem_append.mp h2 with h3 | h3
      · obtain ⟨d, hd, rfl⟩ := mem_natChars c m (List.mem_of_mem_take h3)
        exact (digitChar_facts d hd).2.2.2.2.2.2.2
      · rcases List.mem_cons.mp h3 with rfl | h4
        · decide
        · obtain ⟨d, hd, rfl⟩ := mem_natChars c m (List.mem_of_mem_drop h4)
          exact (digitChar_facts d hd).2.2.2.2.2.2.2
    · rcases List.mem_cons.mp h2 with rfl | h3
      · decide
      · rcases List.mem_cons.mp h3 with rfl | h4
        · split_ifs <;> decide
        · obtain ⟨d, hd, rfl⟩ := mem_leftPad c 2 _ h4
          exact (digitChar_facts d hd).2.2.2.2.2.2.2

lemma sci18_no_ws (q : ℚ) : ∀ c ∈ sci18 q, isPyWs c = false := by
  intro c hc
  rw [sci18] at hc
  split_ifs at hc with h1 h2
  · exact (by decide : ∀ x ∈ ('0' :: '.' :: (List.replicate 18 '0' ++
      ['e', '+', '0', '0'])), isPyWs x = false) c hc
  · exact sciShape_no_ws _ _ _ c hc
  · exact sciShape_no_ws _ _ _ c hc

lemma sci18_ne_nil (q : ℚ) : sci18 q ≠ [] := by
  rw [sci18]
  split_ifs with h1 h2
  · simp
  · rw [sciShape]
    intro h
    rcases List.append_eq_nil.mp h with ⟨-, h3⟩
    rcases List.append_eq_nil.mp h3 with ⟨-, h4⟩
    simp at h4
  · rw [sciShape]
    intro h
    rcases List.append_eq_nil.mp h with ⟨-, h3⟩
    rcases List.append_eq_nil.mp h3 with ⟨-, h4⟩
    simp at h4

lemma stripWs_sci18 (q : ℚ) : stripWs (sci18 q) = sci18 q := by
  rw [stripWs]
  exact stripWs_id _ (sci18_no_ws q)

lemma mem_fixed16_ne_e (p : ℚ) : ∀ c ∈ fixed16 p, c ≠ 'e' := by
  intro c hc
  rw [fixed16] at hc
  rcases List.mem_append.mp hc with h | h
  · rcases List.mem_append.mp h with h2 | h2
    · have hc2 : c = '-' := by
        by_cases hp : p < 0
        · rw [if_pos hp] at h2
          simpa using h2
        · rw [if_neg hp] at h2
          simp at h2
      rw [hc2]
      decide
    · obtain ⟨d, hd, rfl⟩ := mem_natChars c _ h2
      exact (digitChar_facts d hd).2.2.2.1
  · rcases List.mem_cons.mp h with rfl | h2
    · decide
    · obtain ⟨d, hd, rfl⟩ := mem_leftPad c 16 _ h2
      exact (digitChar_facts d hd).2.2.2.1

lemma sci18_has_e (q : ℚ) : 'e' ∈ sci18 q := by
  rw [sci18]
  split_ifs with h1 h2
  · decide
  · rw [sciShape]
    refine List.mem_append_right _ (List.mem_append_right _ ?_)
    exact List.mem_cons_self _ _
  · rw [sciShape]
    refine List.mem_append_right _ (List.mem_append_right _ ?_)
    exact List.mem_cons_self _ _

lemma sci18_ne_fixed16 (q p : ℚ) : sci18 q ≠ fixed16 p := by
  intro h
  exact mem_fixed16_ne_e p 'e' (h ▸ sci18_has_e q) rfl

/-! ## Theorems: write-then-read round trip (claim C8) -/

/-- C8: serializing any vector with `np.savetxt`'s `"%.18e"` format and
reading it back with the `np.loadtxt` reader succeeds, reproduces the length,
returns every component within half an ulp of the 19-significant-digit decimal
grid (identity up to the rounding of the format — finer than binary64
precision), and is the exact identity on every component that is exactly
representable at that precision. -/
theorem savetxt_loadtxt_roundtrip (v : List ℚ) :
    ∃ w : List ℚ, loadtxtLines (savetxtLines v) = some (w.map PyVal.num) ∧
      w.length = v.length ∧
      (∀ i, i < v.length → |w.getD i 0 - v.getD i 0| ≤ halfUlp (v.getD i 0)) ∧
      (∀ i, i < v.length →
        (∃ k : ℤ, |v.getD i 0| = (k : ℚ) * (10 : ℚ) ^ (Int.log 10 |v.getD i 0| - 18)) →
        w.getD i 0 = v.getD i 0) := by
  induction v with
  | nil =>
      refine ⟨[], ?_, rfl, ?_, ?_⟩
      · simp [loadtxtLines, savetxtLines, parseAll]
      · intro i hi
        simp at hi
      · intro i hi
        simp at hi
  | cons q tl ih =>
      obtain ⟨w, hw1, hw2, hw3, hw4⟩ := ih
      obtain ⟨q2, hq2, hq2err, hq2ex⟩ := pyFloat_sci18 q
      refine ⟨q2 :: w, ?_, ?_, ?_, ?_⟩
      · have hkeep : (!(stripWs (sci18 q)).isEmpty) = true := by
          rw [stripWs_sci18]
          simp [List.isEmpty_iff, sci18_ne_nil q]
        rw [savetxtLines, List.map_cons, loadtxtLines, List.filter_cons, hkeep]
        simp only [if_true]
        rw [loadtxtLines, savetxtLines] at hw1
        rw [parseAll]
        simp [hq2, hw1]
      · simp [hw2]
      · intro i hi
        cases i with
        | zero => simpa using hq2err
        | succ i =>
            have h := hw3 i (by simpa using hi)
            simpa using h
      · intro i hi
        cases i with
        | zero =>
            intro hex
            obtain ⟨k, hk⟩ := by simpa using hex
            simpa using hq2ex k hk
        | succ i =>
            have h := hw4 i (by simpa using hi)
            simpa using h

lemma log_two : Int.log 10 (|(2 : ℚ)|) = 0 := by
  rw [show |(2 : ℚ)| = ((2 : ℕ) : ℚ) from by norm_num, Int.log_natCast]
  norm_num [Nat.log_eq_zero_iff]

lemma rep_two :
    |(2 : ℚ)| = ((2 * 10 ^ 18 : ℤ) : ℚ) * (10 : ℚ) ^ (Int.log 10 (|(2 : ℚ)|) - 18) := by
  rw [log_two]
  push_cast
  rw [zpow_neg]
  rw [show ((10 : ℚ) ^ (18 : ℤ)) = (10 : ℚ) ^ (18 : ℕ) from by norm_num]
  rw [abs_of_pos (by norm_num : (0 : ℚ) < 2)]
  field_simp
  norm_num

/-- C8 witness: the one-element vector `[2.0]` round-trips exactly. -/
theorem savetxt_loadtxt_roundtrip_witness :
    ∃ w : List ℚ, loadtxtLines (savetxtLines [(2 : ℚ)]) = some (w.map PyVal.num) ∧
      w.getD 0 0 = 2 := by
  obtain ⟨w, h1, h2, h3, h4⟩ := savetxt_loadtxt_roundtrip [(2 : ℚ)]
  refine ⟨w, h1, ?_⟩
  have h := h4 0 (by norm_num) ⟨2 * 10 ^ 18, by simpa using rep_two⟩
  simpa using h

/-! ## Theorems: the squaring executable (claims C9 and C5) -/

lemma parseAll_none (lines : List Line) (h : ∃ l ∈ lines, pyFloat l = none) :
    parseAll lines = none := by
  induction lines with
  | nil => simp at h
  | cons a tl ih =>
      rw [parseAll]
      obtain ⟨b, hb, hfb⟩ := h
      rcases List.mem_cons.mp hb with rfl | hb2
      · rw [hfb]
      · rw [ih ⟨b, hb2, hfb⟩]
        cases pyFloat a <;> rfl

/-- C9: `extcode_square.py` squares only the first value of its input file —
when every line parses, the result is the square of the first line's value
(for a finite first value `q`, exactly `q^2`) whatever the remaining lines
hold; a file with no lines fails with `IndexError`; a file with any line
`float()` rejects fails with `ValueError` and produces no output value. -/
theorem extcodeSquare_spec :
    (∀ lines (q : ℚ) rest, parseAll lines = some (PyVal.num q :: rest) →
      extcodeSquareMain lines = .ok (.num (q ^ 2))) ∧
    (∀ lines (x0 : PyVal) rest, parseAll lines = some (x0 :: rest) →
      extcodeSquareMain lines = .ok (pySquare x0)) ∧
    extcodeSquareMain [] = .error .indexError ∧
    (∀ lines, (∃ l ∈ lines, pyFloat l = none) →
      extcodeSquareMain lines = .error .valueError) := by
  refine ⟨?_, ?_, rfl, ?_⟩
  · intro lines q rest h
    rw [extcodeSquareMain, h]
    rfl
  · intro lines x0 rest h
    rw [extcodeSquareMain, h]
  · intro lines h
    rw [extcodeSquareMain, parseAll_none lines h]

lemma pyFloat_two : pyFloat [ '2' ] = some (.num 2) := by
  simp +decide [pyFloat, pyFloatCore, pyFloatNumber, stripWs, splitSign, isInfWord,
    isNanWord, asciiLower, parseMantissa, parseMantissaCore, digitRunVal, digitRunAux,
    charDigitVal, parseExpPart, isPyWs]

lemma pyFloat_z : pyFloat [ 'z' ] = none := by
  simp +decide [pyFloat, pyFloatCore, pyFloatNumber, stripWs, splitSign, isInfWord,
    isNanWord, asciiLower, parseMantissa, parseMantissaCore, digitRunVal, digitRunAux,
    charDigitVal, parseExpPart, isPyWs]

/-- C9 witness: the file `"2"` yields `4`; the file `"z"` fails with
`ValueError`. -/
theorem extcodeSquare_spec_witness :
    extcodeSquareMain [[ '2' ]] = .ok (.num 4) ∧
    extcodeSquareMain [[ 'z' ]] = .error .valueError := by
  constructor
  · have h := extcodeSquare_spec.1 [[ '2' ]] 2 []
      (by rw [parseAll, pyFloat_two]; rfl)
    rw [h]
    norm_num
  · exact extcodeSquare_spec.2.2.2 [[ 'z' ]] ⟨[ 'z' ], by simp, pyFloat_z⟩

lemma fixed16_neg15 : fixed16 (-15 : ℚ) =
    '-' :: '1' :: '5' :: '.' :: List.replicate 16 '0' := by
  have habs : |(-15 : ℚ)| * 10 ^ 16 = ((150000000000000000 : ℤ) : ℚ) := by
    norm_num
  rw [fixed16, habs, rnd_intCast, if_pos (by norm_num : (-15 : ℚ) < 0)]
  decide

lemma pyFloat_neg15 :
    pyFloat ('-' :: '1' :: '5' :: '.' :: List.replicate 16 '0') = some (.num (-15)) := by
  simp +decide [pyFloat, pyFloatCore, pyFloatNumber, stripWs, splitSign, isInfWord,
    isNanWord, asciiLower, parseMantissa, parseMantissaCore, digitRunVal, digitRunAux,
    charDigitVal, parseExpPart, isPyWs, List.replicate]
  norm_num

/-- C5: with `x = 3.0` and `y = -4.0` the paraboloid stage yields
`f_xy = -15.0`; the square stage's input file for that value is the fixed
16-digit line `-15.0000000000000000`, and running the squaring executable on
it yields `f_x = 225.0`, the value the final assertion checks. -/
theorem paraboloid_square_chain :
    paraboloid 3 (-4) = -15 ∧
    squareInputLines (paraboloid 3 (-4)) =
      [('-' :: '1' :: '5' :: '.' :: List.replicate 16 '0')] ∧
    extcodeSquareMain (squareInputLines (paraboloid 3 (-4))) = .ok (.num 225) := by
  have hp : paraboloid 3 (-4) = -15 := by norm_num [paraboloid]
  refine ⟨hp, ?_, ?_⟩
  · rw [squareInputLines, hp, fixed16_neg15]
  · rw [squareInputLines, hp, fixed16_neg15, extcodeSquareMain, parseAll, pyFloat_neg15]
    rw [parseAll]
    norm_num [pySquare]

/-! ## Theorems: the input-file formats (claim C6) -/

/-- C6 counterexample: the distributed stage's input file for the one-element
vector `[1.0]` is an `np.savetxt` `"%.18e"` line, which is not the `"%.16f"`
line the claim requires of every input file. -/
theorem distribInput_not_fixed16 :
    distribInputLines [(1 : ℚ)] ≠ [fixed16 (1 : ℚ)] := by
  intro h
  have h2 : sci18 (1 : ℚ) = fixed16 (1 : ℚ) := by
    have h3 := congrArg (fun l => List.getD l 0 []) h
    simpa [distribInputLines] using h3
  exact sci18_ne_fixed16 1 1 h2

/-- C6 amended: the scalar stages' input files are `"%.16f"` lines — two for
the paraboloid stage, one for the square stage — but the distributed stage's
vector input file is written by `np.savetxt` in its default `"%.18e"`
scientific format, one value per line, and a `"%.18e"` line never coincides
with a `"%.16f"` line. -/
theorem inputFileFormats :
    (∀ x y, paraboloidInputLines x y = [fixed16 x, fixed16 y]) ∧
    (∀ x, squareInputLines x = [fixed16 x]) ∧
    (∀ invec, distribInputLines invec = invec.map sci18) ∧
    (∀ q p, sci18 q ≠ fixed16 p) :=
  ⟨fun _ _ => rfl, fun _ => rfl, fun _ => rfl, sci18_ne_fixed16⟩


/-- C6 amended witness: at the concrete value 1.0 the scientific line differs
from the fixed-point line. -/
theorem inputFileFormats_witness : sci18 (1 : ℚ) ≠ fixed16 (1 : ℚ) :=
  inputFileFormats.2.2.2 1 1

end ExtcodeFolderNames
